import Mathlib

/-!
Verification of the PartyPlannerLite core against its specification.

The definitions below are shallow embeddings of the server storage layer
(`server/storage.ts`, class `DatabaseStorage`) and of the relevant route
handlers (`server/routes.ts`).  Database tables are lists of records,
SQL `where` clauses are list filters, and JavaScript numbers are `Nat`
(ids, counts) or `Rat` (percentages).  JavaScript truthiness on the
nullable `parentId` column (`!activity.parentId`) is modelled explicitly:
`null` and `0` are both falsy.
-/

namespace PartyPlanner

/-- A row of the `date_options` table (schema `dateOptions`). -/
structure DateOption where
  id : Nat
  eventId : Nat
  date : String
  time : String
deriving Repr, DecidableEq

/-- A row of the `date_selections` table (schema `dateSelections`). -/
structure DateSelection where
  rsvpId : Nat
  dateOptionId : Nat
deriving Repr, DecidableEq

/-- The `DateOptionWithVotes` record returned by `getDateOptionsWithVotes`. -/
structure DateOptionWithVotes where
  id : Nat
  eventId : Nat
  date : String
  time : String
  votes : Nat
  percentage : Rat
deriving Repr, DecidableEq

/-- The per-option selection count: `storage.ts` line 266-271, the length of
`select * from dateSelections where dateSelections.dateOptionId = option.id`. -/
def countVotes (selections : List DateSelection) (optionId : Nat) : Nat :=
  (selections.filter (fun s => s.dateOptionId == optionId)).length

/-- The `results` array built by the first loop of `getDateOptionsWithVotes`
(`storage.ts` lines 262-278): each option with its vote count and a
placeholder percentage of 0. -/
def tallyResults (options : List DateOption) (selections : List DateSelection) :
    List DateOptionWithVotes :=
  options.map (fun o => ⟨o.id, o.eventId, o.date, o.time, countVotes selections o.id, 0⟩)

/-- `Math.max(...results.map(r => r.votes), 1)` (`storage.ts` line 281). -/
def tallyMaxVotes (options : List DateOption) (selections : List DateSelection) : Nat :=
  ((tallyResults options selections).map (fun r => r.votes)).foldr max 1

/-- `DatabaseStorage.getDateOptionsWithVotes` (`storage.ts` lines 258-288),
with the two database reads replaced by its two list arguments: the event's
date options and the full `date_selections` table. -/
def getDateOptionsWithVotes (options : List DateOption) (selections : List DateSelection) :
    List DateOptionWithVotes :=
  (tallyResults options selections).map
    (fun r => { r with percentage := (r.votes : Rat) / (tallyMaxVotes options selections : Rat) * 100 })

/-! ### Helper lemmas about counting -/

theorem beq_nat_comm (a b : Nat) : (a == b) = (b == a) := by
  by_cases h : a = b
  · subst h; rfl
  · simp [h, Ne.symm h]

theorem sum_map_add {α : Type} (l : List α) (f g : α → Nat) :
    (l.map (fun x => f x + g x)).sum = (l.map f).sum + (l.map g).sum := by
  induction l with
  | nil => rfl
  | cons x xs ih => simp [List.map_cons, List.sum_cons, ih]; omega

theorem sum_map_indicator {α : Type} (l : List α) (p : α → Bool) :
    (l.map (fun x => if p x then 1 else 0)).sum = (l.filter p).length := by
  induction l with
  | nil => rfl
  | cons x xs ih =>
    by_cases h : p x = true
    · simp [List.filter_cons, h, ih]; omega
    · simp [List.filter_cons, h, ih]

/-- Exchanging the two summations in the vote tally: summing per-option
selection counts equals summing per-selection option counts. -/
theorem sum_countVotes_swap (D : List DateOption) (S : List DateSelection) :
    (D.map (fun o => countVotes S o.id)).sum
      = (S.map (fun s => (D.filter (fun o => o.id == s.dateOptionId)).length)).sum := by
  induction D with
  | nil => simp
  | cons o D ih =>
    simp only [List.map_cons, List.sum_cons, ih]
    have h1 : ∀ s : DateSelection,
        ((o :: D).filter (fun o' => o'.id == s.dateOptionId)).length
          = (if o.id == s.dateOptionId then 1 else 0)
            + (D.filter (fun o' => o'.id == s.dateOptionId)).length := by
      intro s
      by_cases h : (o.id == s.dateOptionId) = true
      · simp [List.filter_cons, h]; omega
      · simp [List.filter_cons, h]
    have h2 : (S.map (fun s => ((o :: D).filter (fun o' => o'.id == s.dateOptionId)).length)).sum
        = (S.map (fun s => if o.id == s.dateOptionId then 1 else 0)).sum
          + (S.map (fun s => (D.filter (fun o' => o'.id == s.dateOptionId)).length)).sum := by
      rw [← sum_map_add]
      apply congrArg
      apply List.map_congr_left
      intro s _
      rw [h1]
    rw [h2, sum_map_indicator]
    apply congrArg (· + (S.map (fun s => (D.filter (fun o' => o'.id == s.dateOptionId)).length)).sum)
    unfold countVotes
    apply congrArg
    apply List.filter_congr
    intro s _
    rw [beq_nat_comm]

/-- With pairwise-distinct option ids, at most one option matches any given
selection, so the count of matching options is an indicator. -/
theorem filter_length_eq_indicator (D : List DateOption) (x : Nat)
    (hD : (D.map DateOption.id).Nodup) :
    (D.filter (fun o => o.id == x)).length
      = (if D.any (fun o => o.id == x) then 1 else 0) := by
  induction D with
  | nil => rfl
  | cons o D ih =>
    simp only [List.map_cons, List.nodup_cons] at hD
    obtain ⟨hno, hD'⟩ := hD
    by_cases h : o.id = x
    · subst h
      have hz : (D.filter (fun o' => o'.id == o.id)).length = 0 := by
        rw [List.length_eq_zero]
        rw [List.filter_eq_nil_iff]
        intro o' ho' hbeq
        exact hno (List.mem_map.mpr ⟨o', ho', by simpa using hbeq⟩)
      simp [List.filter_cons, List.any_cons, hz]
    · have hbeq : (o.id == x) = false := by simp [h]
      simp [List.filter_cons, List.any_cons, hbeq, ih hD']

/-! ### C1: per-option vote counts and the total -/

/-- C1: for every option list `D` (with the distinct ids a primary-key column
guarantees) and every selection list `S`, the tally reports for each option
exactly the number of selections referencing it, and the reported votes sum
to the number of selections that reference an option present in `D`
(selections referencing options outside `D` are counted nowhere). -/
theorem tally_votes_correct (D : List DateOption) (S : List DateSelection)
    (hD : (D.map DateOption.id).Nodup) :
    (getDateOptionsWithVotes D S).map (fun r => (r.id, r.votes))
        = D.map (fun o => (o.id, S.countP (fun s => s.dateOptionId == o.id)))
      ∧ ((getDateOptionsWithVotes D S).map (fun r => r.votes)).sum
        = (S.filter (fun s => D.any (fun o => o.id == s.dateOptionId))).length := by
  constructor
  · simp only [getDateOptionsWithVotes, tallyResults, List.map_map]
    apply List.map_congr_left
    intro o _
    simp [countVotes, List.countP_eq_length_filter]
  · have hv : (getDateOptionsWithVotes D S).map (fun r => r.votes)
        = D.map (fun o => countVotes S o.id) := by
      simp only [getDateOptionsWithVotes, tallyResults, List.map_map]
      rfl
    rw [hv, sum_countVotes_swap]
    have : ∀ s ∈ S, (D.filter (fun o => o.id == s.dateOptionId)).length
        = (if D.any (fun o => o.id == s.dateOptionId) then 1 else 0) := by
      intro s _
      exact filter_length_eq_indicator D s.dateOptionId hD
    rw [List.map_congr_left this, sum_map_indicator]

/-- Witness for `tally_votes_correct` at a concrete input. -/
theorem tally_votes_correct_witness :
    (([⟨1, 1, "Jul 15", "t"⟩, ⟨2, 1, "Jul 22", "t"⟩] : List DateOption).map DateOption.id).Nodup
      ∧ ((getDateOptionsWithVotes [⟨1, 1, "Jul 15", "t"⟩, ⟨2, 1, "Jul 22", "t"⟩]
            [⟨1, 1⟩, ⟨2, 1⟩, ⟨3, 7⟩]).map (fun r => r.votes)).sum
        = (([⟨1, 1⟩, ⟨2, 1⟩, ⟨3, 7⟩] : List DateSelection).filter
            (fun s => ([⟨1, 1, "Jul 15", "t"⟩, ⟨2, 1, "Jul 22", "t"⟩] : List DateOption).any
              (fun o => o.id == s.dateOptionId))).length :=
  ⟨by decide,
   (tally_votes_correct [⟨1, 1, "Jul 15", "t"⟩, ⟨2, 1, "Jul 22", "t"⟩]
      [⟨1, 1⟩, ⟨2, 1⟩, ⟨3, 7⟩] (by decide)).2⟩

/-! ### Fold-max helper lemmas -/

theorem le_foldr_max_init (l : List Nat) (init : Nat) : init ≤ l.foldr max init := by
  induction l with
  | nil => exact le_refl _
  | cons x xs ih => exact le_trans ih (le_max_right _ _)

theorem le_foldr_max_of_mem {l : List Nat} {x : Nat} (init : Nat) (hx : x ∈ l) :
    x ≤ l.foldr max init := by
  induction l with
  | nil => cases hx
  | cons y ys ih =>
    rcases List.mem_cons.mp hx with h | h
    · subst h; exact le_max_left _ _
    · exact le_trans (ih h) (le_max_right _ _)

theorem foldr_max_le {l : List Nat} {b : Nat} (init : Nat) (hinit : init ≤ b)
    (h : ∀ x ∈ l, x ≤ b) : l.foldr max init ≤ b := by
  induction l with
  | nil => exact hinit
  | cons y ys ih =>
    exact max_le (h y (List.mem_cons_self y ys)) (ih (fun x hx => h x (List.mem_cons_of_mem y hx)))

/-! ### C2: all-zero tallies divide by 1 and report 0 percent -/

/-- C2: when every date option of the input receives zero votes, the divisor
`Math.max(...votes, 1)` is 1 (never 0), and every reported percentage is
exactly 0 — no division by zero occurs. -/
theorem tally_all_zero_percentage (D : List DateOption) (S : List DateSelection)
    (h : ∀ o ∈ D, countVotes S o.id = 0) :
    tallyMaxVotes D S = 1
      ∧ ∀ r ∈ getDateOptionsWithVotes D S, r.votes = 0 ∧ r.percentage = 0 := by
  have hvotes : ∀ x ∈ (tallyResults D S).map (fun r => r.votes), x = 0 := by
    intro x hx
    rcases List.mem_map.mp hx with ⟨r, hr, hrx⟩
    rcases List.mem_map.mp hr with ⟨o, ho, hor⟩
    rw [← hrx, ← hor]
    exact h o ho
  have hmax : tallyMaxVotes D S = 1 := by
    apply le_antisymm
    · exact foldr_max_le 1 (le_refl 1) (fun x hx => le_trans (le_of_eq (hvotes x hx)) (Nat.zero_le 1))
    · exact le_foldr_max_init _ 1
  refine ⟨hmax, ?_⟩
  intro r hr
  rcases List.mem_map.mp hr with ⟨r0, hr0, hrr⟩
  have hv : r0.votes = 0 :=
    hvotes r0.votes (List.mem_map.mpr ⟨r0, hr0, rfl⟩)
  constructor
  · rw [← hrr]; exact hv
  · rw [← hrr]
    simp [hv]

/-- Witness for `tally_all_zero_percentage` at a concrete input. -/
theorem tally_all_zero_percentage_witness :
    tallyMaxVotes [⟨1, 1, "d", "t"⟩] [⟨1, 7⟩] = 1
      ∧ ∀ r ∈ getDateOptionsWithVotes [⟨1, 1, "d", "t"⟩] [⟨1, 7⟩],
          r.votes = 0 ∧ r.percentage = 0 :=
  tally_all_zero_percentage [⟨1, 1, "d", "t"⟩] [⟨1, 7⟩] (by decide)

/-! ### C3: maximal options show 100 percent — except on all-zero inputs -/

theorem tally_cex_compute :
    getDateOptionsWithVotes [⟨1, 1, "d", "t"⟩] ([] : List DateSelection)
      = [⟨1, 1, "d", "t", 0, 0⟩] := by
  norm_num [getDateOptionsWithVotes, tallyResults, tallyMaxVotes, countVotes]

/-- C3 counterexample: on the input with one option and no selections, that
option's vote count (0) is the maximum across all options, yet its reported
percentage is 0, not 100 — the divisor floor of 1 beats normalization. -/
theorem tally_max_percentage_cex :
    ∃ r ∈ getDateOptionsWithVotes [⟨1, 1, "d", "t"⟩] ([] : List DateSelection),
      (∀ r' ∈ getDateOptionsWithVotes [⟨1, 1, "d", "t"⟩] ([] : List DateSelection),
        r'.votes ≤ r.votes) ∧ r.percentage ≠ 100 := by
  rw [tally_cex_compute]
  refine ⟨⟨1, 1, "d", "t", 0, 0⟩, List.mem_singleton_self _, ?_, ?_⟩
  · intro r' hr'
    rw [List.mem_singleton.mp hr']
  · show (0 : Rat) ≠ 100
    norm_num

/-- C3 amended: any option whose vote count is maximal among the tally's
entries and at least 1 is reported with percentage exactly 100.  (When every
option has zero votes the divisor floor makes every percentage 0 instead.) -/
theorem tally_max_percentage_100 (D : List DateOption) (S : List DateSelection)
    (r : DateOptionWithVotes) (hr : r ∈ getDateOptionsWithVotes D S)
    (hmax : ∀ r' ∈ getDateOptionsWithVotes D S, r'.votes ≤ r.votes)
    (hpos : 1 ≤ r.votes) : r.percentage = 100 := by
  rcases List.mem_map.mp hr with ⟨r0, hr0, hrr⟩
  have hvr : r.votes = r0.votes := by rw [← hrr]
  have hub : ∀ x ∈ (tallyResults D S).map (fun t => t.votes), x ≤ r.votes := by
    intro x hx
    rcases List.mem_map.mp hx with ⟨t, ht, htx⟩
    have : ({ t with percentage := (t.votes : Rat) / (tallyMaxVotes D S : Rat) * 100 }
        : DateOptionWithVotes) ∈ getDateOptionsWithVotes D S :=
      List.mem_map.mpr ⟨t, ht, rfl⟩
    have := hmax _ this
    simpa [htx] using this
  have hmem : r0.votes ∈ (tallyResults D S).map (fun t => t.votes) :=
    List.mem_map.mpr ⟨r0, hr0, rfl⟩
  have hM : tallyMaxVotes D S = r.votes := by
    apply le_antisymm
    · exact foldr_max_le 1 hpos hub
    · rw [hvr]; exact le_foldr_max_of_mem 1 hmem
  have hne : ((r0.votes : Nat) : Rat) ≠ 0 := by
    have h1 : r0.votes ≠ 0 := Nat.one_le_iff_ne_zero.mp (hvr ▸ hpos)
    exact_mod_cast h1
  rw [← hrr]
  show (r0.votes : Rat) / (tallyMaxVotes D S : Rat) * 100 = 100
  rw [hM, hvr, div_self hne, one_mul]

/-- Witness for `tally_max_percentage_100` at a concrete input. -/
theorem tally_max_percentage_100_witness :
    (⟨1, 1, "d", "t", 1, 100⟩ : DateOptionWithVotes).percentage = 100 :=
  tally_max_percentage_100 [⟨1, 1, "d", "t"⟩] [⟨1, 1⟩] ⟨1, 1, "d", "t", 1, 100⟩
    (by norm_num [getDateOptionsWithVotes, tallyResults, tallyMaxVotes, countVotes])
    (by norm_num [getDateOptionsWithVotes, tallyResults, tallyMaxVotes, countVotes])
    (by norm_num)

/-! ### C9: the worked scenario from the specification -/

/-- C9 counterexample: on the spec's scenario (three selections for option 1,
one for option 2) the code reports option 2's percentage as 100/3 =
33.333…, not the spec's stated 33.33 (= 3333/100). -/
theorem tally_scenario_cex :
    (getDateOptionsWithVotes [⟨1, 1, "Jul 15", "t"⟩, ⟨2, 1, "Jul 22", "t"⟩]
        [⟨1, 1⟩, ⟨1, 1⟩, ⟨1, 1⟩, ⟨2, 2⟩]).map (fun r => (r.votes, r.percentage))
      ≠ [(3, 100), (1, 3333 / 100)] := by
  norm_num [getDateOptionsWithVotes, tallyResults, tallyMaxVotes, countVotes]

/-- C9 amended: on the spec's scenario the tally reports option 1 with 3
votes at percentage 100 and option 2 with 1 vote at percentage 100/3
(i.e. 33.33…, which rounds to 33.33 for display). -/
theorem tally_scenario :
    (getDateOptionsWithVotes [⟨1, 1, "Jul 15", "t"⟩, ⟨2, 1, "Jul 22", "t"⟩]
        [⟨1, 1⟩, ⟨1, 1⟩, ⟨1, 1⟩, ⟨2, 2⟩]).map (fun r => (r.votes, r.percentage))
      = [(3, 100), (1, 100 / 3)] := by
  norm_num [getDateOptionsWithVotes, tallyResults, tallyMaxVotes, countVotes]

/-! ## Thread Builder (`getActivitiesByEventId` / `buildActivityWithReplies`) -/

/-- A row of the `activities` table.  `parentId` is the nullable
self-reference forming the reply tree. -/
structure Activity where
  id : Nat
  eventId : Nat
  author : String
  message : String
  parentId : Option Nat
deriving Repr, DecidableEq

/-- A row of the `reactions` table. -/
structure Reaction where
  id : Nat
  activityId : Nat
  author : String
  emoji : String
deriving Repr, DecidableEq

/-- The `{emoji, count}` summary entries built by `buildActivityWithReplies`. -/
structure ReactionCount where
  emoji : String
  count : Nat
deriving Repr, DecidableEq

/-- JavaScript truthiness of the nullable numeric `parentId`:
`!activity.parentId` is true for `null` and for `0`. -/
def isTruthyId : Option Nat → Bool
  | none => false
  | some n => n != 0

/-- `acc.find(r => r.emoji === reaction.emoji)` followed by
`existingReaction.count++`: increment the first entry carrying the emoji. -/
def incrementFirst : List ReactionCount → String → List ReactionCount
  | [], _ => []
  | rc :: rest, e =>
    if rc.emoji == e then { rc with count := rc.count + 1 } :: rest
    else rc :: incrementFirst rest e

/-- One step of the `reduce` in `buildActivityWithReplies` (`storage.ts`
lines 207-218): bump the existing entry for the emoji or push a new one. -/
def addReactionCount (acc : List ReactionCount) (e : String) : List ReactionCount :=
  if acc.any (fun rc => rc.emoji == e) then incrementFirst acc e
  else acc ++ [⟨e, 1⟩]

/-- The whole `reduce` with initial accumulator `[]`. -/
def reactionCounts (rs : List Reaction) : List ReactionCount :=
  rs.foldl (fun acc r => addReactionCount acc r.emoji) []

/-! ### C5: the reaction summary, characterised -/

/-- First-seen deduplication of a list, as the specification describes the
order of the reaction summary. -/
def firstSeen (es : List String) : List String :=
  es.foldl (fun acc e => if e ∈ acc then acc else acc ++ [e]) []

/-- The specification's description of the reaction summary: one entry per
distinct emoji in first-occurrence order, counting exact matches. -/
def specReactionSummary (rs : List Reaction) : List ReactionCount :=
  (firstSeen (rs.map (fun r => r.emoji))).map
    (fun e => ⟨e, (rs.map (fun r => r.emoji)).count e⟩)

theorem firstSeen_aux_mem (es : List String) :
    ∀ (acc : List String) (x : String),
      x ∈ es.foldl (fun a e => if e ∈ a then a else a ++ [e]) acc ↔ x ∈ acc ∨ x ∈ es := by
  induction es with
  | nil => intro acc x; simp
  | cons e es ih =>
    intro acc x
    by_cases h : e ∈ acc
    · simp only [List.foldl_cons, if_pos h, ih, List.mem_cons]
      constructor
      · rintro (hx | hx)
        · exact Or.inl hx
        · exact Or.inr (Or.inr hx)
      · rintro (hx | hx | hx)
        · exact Or.inl hx
        · exact Or.inl (hx ▸ h)
        · exact Or.inr hx
    · simp only [List.foldl_cons, if_neg h, ih, List.mem_append, List.mem_singleton,
        List.mem_cons]
      tauto

theorem firstSeen_mem (es : List String) (x : String) : x ∈ firstSeen es ↔ x ∈ es := by
  rw [firstSeen, firstSeen_aux_mem]
  simp

theorem firstSeen_aux_nodup (es : List String) :
    ∀ acc : List String, acc.Nodup →
      (es.foldl (fun a e => if e ∈ a then a else a ++ [e]) acc).Nodup := by
  induction es with
  | nil => intro acc h; simpa using h
  | cons e es ih =>
    intro acc h
    rw [List.foldl_cons]
    by_cases hmem : e ∈ acc
    · rw [if_pos hmem]
      exact ih acc h
    · rw [if_neg hmem]
      refine ih (acc ++ [e]) ?_
      simp [List.nodup_append, h, hmem]

theorem firstSeen_nodup (es : List String) : (firstSeen es).Nodup :=
  firstSeen_aux_nodup es [] List.nodup_nil

theorem firstSeen_concat (es : List String) (e : String) :
    firstSeen (es ++ [e]) = if e ∈ es then firstSeen es else firstSeen es ++ [e] := by
  have h1 : firstSeen (es ++ [e])
      = if e ∈ firstSeen es then firstSeen es else firstSeen es ++ [e] := by
    unfold firstSeen
    rw [List.foldl_append, List.foldl_cons, List.foldl_nil]
  rw [h1]
  by_cases h : e ∈ es
  · rw [if_pos ((firstSeen_mem es e).mpr h), if_pos h]
  · rw [if_neg (fun hx => h ((firstSeen_mem es e).mp hx)), if_neg h]

theorem incrementFirst_map (l : List String) (f : String → Nat) (e : String)
    (hl : l.Nodup) :
    incrementFirst (l.map (fun x => ⟨x, f x⟩)) e
      = l.map (fun x => ⟨x, f x + if x == e then 1 else 0⟩) := by
  induction l with
  | nil => rfl
  | cons x xs ih =>
    simp only [List.nodup_cons] at hl
    obtain ⟨hx, hxs⟩ := hl
    by_cases h : x = e
    · subst h
      simp only [List.map_cons, incrementFirst, beq_self_eq_true, if_true]
      congr 1
      apply List.map_congr_left
      intro y hy
      have hyx : y ≠ x := fun hc => hx (hc ▸ hy)
      simp [hyx]
    · have hbeq : (x == e) = false := by simp [h]
      simp only [List.map_cons, incrementFirst, hbeq, Bool.false_eq_true, if_false,
        ih hxs, Nat.add_zero]

theorem spec_summary_concat (rs : List Reaction) (r : Reaction) :
    specReactionSummary (rs ++ [r])
      = addReactionCount (specReactionSummary rs) r.emoji := by
  unfold specReactionSummary addReactionCount
  rw [List.map_append]
  simp only [List.map_cons, List.map_nil]
  rw [firstSeen_concat]
  set es := rs.map (fun x => x.emoji) with hes
  by_cases h : r.emoji ∈ es
  · rw [if_pos h]
    have hany : ((firstSeen es).map
          (fun e => (⟨e, es.count e⟩ : ReactionCount))).any
            (fun rc => rc.emoji == r.emoji) = true := by
      rw [List.any_eq_true]
      exact ⟨⟨r.emoji, es.count r.emoji⟩,
        List.mem_map.mpr ⟨r.emoji, (firstSeen_mem es r.emoji).mpr h, rfl⟩, by simp⟩
    rw [if_pos hany, incrementFirst_map _ _ _ (firstSeen_nodup es)]
    apply List.map_congr_left
    intro x _
    have hc : (es ++ [r.emoji]).count x = es.count x + if x == r.emoji then 1 else 0 := by
      rw [List.count_append]
      by_cases hx : x = r.emoji
      · subst hx; simp
      · simp [List.count_singleton, hx, Ne.symm hx]
    rw [hc]
  · rw [if_neg h]
    have hany : ((firstSeen es).map
          (fun e => (⟨e, es.count e⟩ : ReactionCount))).any
            (fun rc => rc.emoji == r.emoji) = false := by
      rw [List.any_eq_false]
      intro rc hrc
      rcases List.mem_map.mp hrc with ⟨x, hx, hxrc⟩
      have hxe : x ∈ es := (firstSeen_mem es x).mp hx
      have hne : x ≠ r.emoji := fun hc => h (hc ▸ hxe)
      rw [← hxrc]
      simpa using hne
    rw [hany, if_neg (by simp)]
    rw [List.map_append]
    congr 1
    · apply List.map_congr_left
      intro x hx
      have hxe : x ∈ es := (firstSeen_mem es x).mp hx
      have hne : x ≠ r.emoji := fun hc => h (hc ▸ hxe)
      rw [List.count_append, List.count_singleton]
      simp [hne, Ne.symm hne]
    · have hc : (es ++ [r.emoji]).count r.emoji = 1 := by
        rw [List.count_append, List.count_singleton, List.count_eq_zero.mpr h]
        simp
      rw [List.map_cons, List.map_nil, hc]

/-- C5: the reaction aggregation of `buildActivityWithReplies` groups by
exact emoji string, counts each group's occurrences, and lists groups in
first-occurrence order — for every list of reaction rows. -/
theorem reaction_summary_correct (rs : List Reaction) :
    reactionCounts rs = specReactionSummary rs := by
  induction rs using List.reverseRecOn with
  | nil => rfl
  | append_singleton rs r ih =>
    have hfold : reactionCounts (rs ++ [r])
        = addReactionCount (reactionCounts rs) r.emoji := by
      unfold reactionCounts
      rw [List.foldl_append]
      rfl
    rw [hfold, ih, spec_summary_concat]

/-! ### The reply forest -/

/-- The `ActivityWithReplies` record: an activity with its recursively built
replies and its reaction summary. -/
inductive ActivityWithReplies where
  | node (activity : Activity) (replies : List ActivityWithReplies)
      (reactions : List ReactionCount)
deriving Repr

/-- The activity stored at the root of a tree. -/
def ActivityWithReplies.activity : ActivityWithReplies → Activity
  | node a _ _ => a

/-- `allActivities.filter(a => a.parentId === activity.id)`
(`storage.ts` line 194). -/
def childrenOf (allActivities : List Activity) (a : Activity) : List Activity :=
  allActivities.filter (fun x => x.parentId == some a.id)

/-- `DatabaseStorage.buildActivityWithReplies` (`storage.ts` lines 192-225).
The source recurses without a bound; the `fuel` argument makes the recursion
structural.  Callers pass `allActivities.length`, which the lemmas below show
is never exhausted on lists with distinct nonzero ids, where the recursion
depth is bounded by the number of activities. -/
def buildActivityWithReplies (allReactions : List Reaction)
    (allActivities : List Activity) : Nat → Activity → ActivityWithReplies
  | 0, activity =>
      .node activity []
        (reactionCounts (allReactions.filter (fun r => r.activityId == activity.id)))
  | fuel + 1, activity =>
      .node activity
        ((childrenOf allActivities activity).map
          (buildActivityWithReplies allReactions allActivities fuel))
        (reactionCounts (allReactions.filter (fun r => r.activityId == activity.id)))

/-- `eventActivities.filter(activity => !activity.parentId)`
(`storage.ts` line 184), with JavaScript truthiness made explicit. -/
def topLevelActivities (eventActivities : List Activity) : List Activity :=
  eventActivities.filter (fun a => !(isTruthyId a.parentId))

/-- The forest built by `DatabaseStorage.getActivitiesByEventId`
(`storage.ts` lines 176-190) from the already-fetched flat list of one
event's activities and the reaction table. -/
def buildActivityForest (eventActivities : List Activity)
    (allReactions : List Reaction) : List ActivityWithReplies :=
  (topLevelActivities eventActivities).map
    (fun a => buildActivityWithReplies allReactions eventActivities
      eventActivities.length a)

/-- How many times activity `b` occurs as a node of the tree. -/
def countNode (b : Activity) : ActivityWithReplies → Nat
  | .node _a replies _ =>
      (if _a = b then 1 else 0) + (replies.attach.map (fun t => countNode b t.1)).sum
decreasing_by
  have h := List.sizeOf_lt_of_mem t.2
  simp only [ActivityWithReplies.node.sizeOf_spec]
  omega

/-- How many times activity `b` occurs as a direct reply of a node holding
activity `q`. -/
def countChildOf (q b : Activity) : ActivityWithReplies → Nat
  | .node _a replies _ =>
      (if _a = q then (replies.map ActivityWithReplies.activity).count b else 0)
        + (replies.attach.map (fun t => countChildOf q b t.1)).sum
decreasing_by
  have h := List.sizeOf_lt_of_mem t.2
  simp only [ActivityWithReplies.node.sizeOf_spec]
  omega

/-- Unfolding `countNode` without the `attach` bookkeeping. -/
theorem countNode_node (b a : Activity) (replies : List ActivityWithReplies)
    (rx : List ReactionCount) :
    countNode b (.node a replies rx)
      = (if a = b then 1 else 0) + (replies.map (fun t => countNode b t)).sum := by
  simp only [countNode]
  congr 1
  rw [List.attach_map_coe]

/-- Unfolding `countChildOf` without the `attach` bookkeeping. -/
theorem countChildOf_node (q b a : Activity) (replies : List ActivityWithReplies)
    (rx : List ReactionCount) :
    countChildOf q b (.node a replies rx)
      = (if a = q then (replies.map ActivityWithReplies.activity).count b else 0)
        + (replies.map (fun t => countChildOf q b t)).sum := by
  simp only [countChildOf]
  congr 1
  rw [List.attach_map_coe]

/-- Occurrences of `b` as a node anywhere in the forest. -/
def countForest (b : Activity) (f : List ActivityWithReplies) : Nat :=
  (f.map (fun t => countNode b t)).sum

/-- Occurrences of `b` as a direct reply of a node holding `q`, anywhere in
the forest. -/
def countChildForest (q b : Activity) (f : List ActivityWithReplies) : Nat :=
  (f.map (fun t => countChildOf q b t)).sum

/-! ### C4: placement of replies in the forest

Database facts justifying the hypotheses below: `activities.id` is a serial
primary key (distinct, starting at 1) and `activities.parent_id` carries a
foreign key onto `activities.id`, so parent references are never 0.  Within
the single-event fetch, however, a parent may be missing (it can belong to
another event), which is exactly the orphan case. -/

theorem id_injective {L : List Activity} (hL : (L.map Activity.id).Nodup) :
    ∀ {x y : Activity}, x ∈ L → y ∈ L → x.id = y.id → x = y := by
  induction L with
  | nil => intro x y hx _ _; cases hx
  | cons z zs ih =>
    rw [List.map_cons, List.nodup_cons] at hL
    obtain ⟨hz, hzs⟩ := hL
    intro x y hx hy hid
    rcases List.mem_cons.mp hx with rfl | hx'
    · rcases List.mem_cons.mp hy with rfl | hy'
      · rfl
      · exact absurd (List.mem_map.mpr ⟨y, hy', hid.symm⟩) hz
    · rcases List.mem_cons.mp hy with rfl | hy'
      · exact absurd (List.mem_map.mpr ⟨x, hx', hid⟩) hz
      · exact ih hzs hx' hy' hid

theorem nodup_subset_length_le {u v : List Nat} (hu : u.Nodup)
    (hsub : ∀ x ∈ u, x ∈ v) : u.length ≤ v.length :=
  calc u.length = u.toFinset.card := (List.toFinset_card_of_nodup hu).symm
    _ ≤ v.toFinset.card := Finset.card_le_card
        (fun x hx => List.mem_toFinset.mpr (hsub x (List.mem_toFinset.mp hx)))
    _ ≤ v.length := List.toFinset_card_le v

/-- The chain of ancestors above an activity, ending at a top-level root
(an activity whose `parentId` is falsy). -/
def AncPath : Activity → List Activity → Prop
  | a, [] => isTruthyId a.parentId = false
  | a, y :: rest => a.parentId = some y.id ∧ AncPath y rest

theorem ancPath_parent_mem {a : Activity} {path : List Activity}
    (h : AncPath a path) :
    ∀ c ∈ a :: path,
      isTruthyId c.parentId = false ∨ ∃ y ∈ path, c.parentId = some y.id := by
  induction path generalizing a with
  | nil =>
    intro c hc
    rw [List.mem_singleton] at hc
    subst hc
    exact Or.inl h
  | cons y rest ih =>
    intro c hc
    obtain ⟨hpar, hrest⟩ := h
    rcases List.mem_cons.mp hc with rfl | hc'
    · exact Or.inr ⟨y, List.mem_cons_self y rest, hpar⟩
    · rcases ih hrest c hc' with h1 | ⟨z, hz, hz2⟩
      · exact Or.inl h1
      · exact Or.inr ⟨z, List.mem_cons_of_mem y hz, hz2⟩

/-- Extending an ancestor path by a child keeps the ids pairwise distinct:
a child of the current node can never already occur on the path. -/
theorem path_extend {L : List Activity} (hL : (L.map Activity.id).Nodup)
    (hpos : ∀ x ∈ L, x.id ≠ 0)
    {a : Activity} {path : List Activity} (hanc : AncPath a path)
    (hmem : ∀ x ∈ a :: path, x ∈ L)
    (hnd : ((a :: path).map Activity.id).Nodup)
    {c : Activity} (hc : c ∈ L) (hcp : c.parentId = some a.id) :
    ((c :: a :: path).map Activity.id).Nodup := by
  rw [List.map_cons, List.nodup_cons]
  refine ⟨fun hcid => ?_, hnd⟩
  rcases List.mem_map.mp hcid with ⟨x, hx, hxid⟩
  have hxc : x = c := id_injective hL (hmem x hx) hc hxid
  subst hxc
  rcases ancPath_parent_mem hanc x hx with hfal | ⟨y, hy, hyid⟩
  · rw [hcp] at hfal
    have hane : a.id ≠ 0 := hpos a (hmem a (List.mem_cons_self a path))
    simp [isTruthyId, hane] at hfal
  · rw [hcp] at hyid
    have hay : a.id = y.id := Option.some.inj hyid
    rw [List.map_cons, List.nodup_cons] at hnd
    exact hnd.1 (List.mem_map.mpr ⟨y, hy, hay.symm⟩)

theorem childrenOf_mem {L : List Activity} {a c : Activity}
    (h : c ∈ childrenOf L a) : c ∈ L ∧ c.parentId = some a.id := by
  unfold childrenOf at h
  refine ⟨List.mem_of_mem_filter h, ?_⟩
  have h2 := List.of_mem_filter h
  simpa using h2

theorem count_filter_eq {α : Type} [DecidableEq α] (l : List α) (p : α → Bool)
    (b : α) : (l.filter p).count b = if p b then l.count b else 0 := by
  by_cases h : p b = true
  · rw [if_pos h]
    exact List.count_filter h
  · rw [if_neg h, List.count_eq_zero]
    intro hb
    exact h (List.of_mem_filter hb)

/-- With distinct ids, `b` (a child of `q`) occurs among the children of `a`
exactly when `a = q`, and then exactly once. -/
theorem childrenOf_count {L : List Activity} (hL : (L.map Activity.id).Nodup)
    {b q : Activity} (hb : b ∈ L) (hq : q ∈ L) (hbp : b.parentId = some q.id)
    {a : Activity} (ha : a ∈ L) :
    (childrenOf L a).count b = if a = q then 1 else 0 := by
  unfold childrenOf
  rw [count_filter_eq]
  by_cases h : a = q
  · subst h
    have hcond : (b.parentId == some a.id) = true := by simp [hbp]
    rw [hcond, if_pos rfl, if_pos rfl]
    exact List.count_eq_one_of_mem (List.Nodup.of_map _ hL) hb
  · have hcond : (b.parentId == some a.id) = false := by
      rw [hbp, beq_eq_false_iff_ne]
      intro hsome
      have hqa : q.id = a.id := Option.some.inj hsome
      exact h (id_injective hL ha hq hqa.symm)
    rw [hcond]
    simp [h]

theorem sum_map_ite_count {α : Type} [DecidableEq α] (l : List α) (b : α) :
    (l.map (fun c => if c = b then 1 else 0)).sum = l.count b := by
  induction l with
  | nil => rfl
  | cons x xs ih =>
    rw [List.map_cons, List.sum_cons, ih, List.count_cons]
    by_cases h : x = b
    · subst h
      simp
      omega
    · simp [h]

theorem topLevel_root {L : List Activity} {r : Activity}
    (h : r ∈ topLevelActivities L) : r ∈ L ∧ isTruthyId r.parentId = false := by
  unfold topLevelActivities at h
  refine ⟨List.mem_of_mem_filter h, ?_⟩
  have h2 := List.of_mem_filter h
  simpa using h2

/-- The root of a built tree is the activity the builder was called on. -/
theorem build_activity (R : List Reaction) (L : List Activity) (fuel : Nat)
    (a : Activity) :
    (buildActivityWithReplies R L fuel a).activity = a := by
  cases fuel <;> rfl

/-- Unfolding the builder at positive fuel. -/
theorem build_succ (R : List Reaction) (L : List Activity) (fuel : Nat)
    (a : Activity) :
    buildActivityWithReplies R L (fuel + 1) a
      = .node a ((childrenOf L a).map (buildActivityWithReplies R L fuel))
          (reactionCounts (R.filter (fun r => r.activityId == a.id))) := rfl

/-- Key counting identity, proved along the ancestor path: inside the tree
built from `a`, the child `b` of `q` occurs exactly as often as `q` does
(plus one if `b` is the call root itself).  The arithmetic side condition is
the fuel invariant: with initial fuel `L.length` the recursion never runs
out, because paths of distinct ids cannot be longer than `L`. -/
theorem countNode_transfer {L : List Activity} (R : List Reaction)
    (hL : (L.map Activity.id).Nodup) (hpos : ∀ x ∈ L, x.id ≠ 0)
    {b q : Activity} (hb : b ∈ L) (hq : q ∈ L) (hbp : b.parentId = some q.id) :
    ∀ (fuel : Nat) (a : Activity) (path : List Activity), a ∈ L →
      AncPath a path → (∀ x ∈ a :: path, x ∈ L) →
      ((a :: path).map Activity.id).Nodup →
      fuel + (a :: path).length = L.length + 1 →
      countNode b (buildActivityWithReplies R L fuel a)
        = (if a = b then 1 else 0)
          + countNode q (buildActivityWithReplies R L fuel a) := by
  intro fuel
  induction fuel with
  | zero =>
    intro a path _ _ hmem hnd hfuel
    exfalso
    have hsub : ∀ i ∈ (a :: path).map Activity.id, i ∈ L.map Activity.id := by
      intro i hi
      rcases List.mem_map.mp hi with ⟨x, hx, rfl⟩
      exact List.mem_map.mpr ⟨x, hmem x hx, rfl⟩
    have hlen := nodup_subset_length_le hnd hsub
    simp only [List.length_map] at hlen
    omega
  | succ fuel ih =>
    intro a path ha hanc hmem hnd hfuel
    rw [build_succ, countNode_node, countNode_node, List.map_map, List.map_map]
    simp only [Function.comp_def]
    have hchild :
        (childrenOf L a).map
            (fun c => countNode b (buildActivityWithReplies R L fuel c))
          = (childrenOf L a).map
            (fun c => (if c = b then 1 else 0)
              + countNode q (buildActivityWithReplies R L fuel c)) := by
      apply List.map_congr_left
      intro c hc
      obtain ⟨hcL, hcp⟩ := childrenOf_mem hc
      refine ih c (a :: path) hcL ⟨hcp, hanc⟩ ?_ ?_ ?_
      · intro x hx
        rcases List.mem_cons.mp hx with rfl | hx'
        · exact hcL
        · exact hmem x hx'
      · exact path_extend hL hpos hanc hmem hnd hcL hcp
      · simp only [List.length_cons] at hfuel ⊢
        omega
    rw [hchild, sum_map_add, sum_map_ite_count,
      childrenOf_count hL hb hq hbp ha]

/-- An activity whose parent id matches nothing in the list occurs in no
subtree built from any other activity. -/
theorem countNode_orphan {L : List Activity} (R : List Reaction)
    {b : Activity} {p : Nat} (hbp : b.parentId = some p)
    (hnone : ∀ x ∈ L, x.id ≠ p) :
    ∀ (fuel : Nat) (a : Activity), a ∈ L → a ≠ b →
      countNode b (buildActivityWithReplies R L fuel a) = 0 := by
  intro fuel
  induction fuel with
  | zero =>
    intro a _ hab
    rw [show buildActivityWithReplies R L 0 a
        = .node a [] (reactionCounts (R.filter (fun r => r.activityId == a.id)))
      from rfl, countNode_node]
    simp [hab]
  | succ fuel ih =>
    intro a ha hab
    rw [build_succ, countNode_node, List.map_map]
    simp only [Function.comp_def]
    have hz : ((childrenOf L a).map
        (fun c => countNode b (buildActivityWithReplies R L fuel c))).sum = 0 := by
      apply List.sum_eq_zero
      intro x hx
      rcases List.mem_map.mp hx with ⟨c, hc, rfl⟩
      obtain ⟨hcL, hcp⟩ := childrenOf_mem hc
      have hcb : c ≠ b := by
        intro hcb
        subst hcb
        rw [hbp] at hcp
        exact hnone a ha (Option.some.inj hcp).symm
      exact ih c hcL hcb
    rw [hz]
    simp [hab]

/-- Every occurrence of the child `b` of `q` in a built tree is a direct
reply of a node holding `q` — apart from `b` being the call root itself. -/
theorem countNode_eq_childOf {L : List Activity} (R : List Reaction)
    (hL : (L.map Activity.id).Nodup)
    {b q : Activity} (hb : b ∈ L) (hq : q ∈ L) (hbp : b.parentId = some q.id) :
    ∀ (fuel : Nat) (a : Activity), a ∈ L →
      countNode b (buildActivityWithReplies R L fuel a)
        = (if a = b then 1 else 0)
          + countChildOf q b (buildActivityWithReplies R L fuel a) := by
  intro fuel
  induction fuel with
  | zero =>
    intro a _
    rw [show buildActivityWithReplies R L 0 a
        = .node a [] (reactionCounts (R.filter (fun r => r.activityId == a.id)))
      from rfl, countNode_node, countChildOf_node]
    simp
  | succ fuel ih =>
    intro a ha
    rw [build_succ, countNode_node, countChildOf_node, List.map_map, List.map_map,
      List.map_map]
    simp only [Function.comp_def]
    have hroots : (childrenOf L a).map
        (fun c => (buildActivityWithReplies R L fuel c).activity)
          = childrenOf L a := by
      have h1 := List.map_congr_left
        (fun c (_ : c ∈ childrenOf L a) => build_activity R L fuel c)
      rw [h1]
      simp
    have hchild :
        (childrenOf L a).map
            (fun c => countNode b (buildActivityWithReplies R L fuel c))
          = (childrenOf L a).map
            (fun c => (if c = b then 1 else 0)
              + countChildOf q b (buildActivityWithReplies R L fuel c)) := by
      apply List.map_congr_left
      intro c hc
      exact ih c (childrenOf_mem hc).1
    rw [hchild, sum_map_add, sum_map_ite_count, hroots,
      childrenOf_count hL hb hq hbp ha]
    by_cases haq : a = q
    · simp [haq]
    · simp [haq]

/-- C4 counterexample: activity 2's `parentId` references activity 1, which
is present in the input list, yet activity 2 appears nowhere in the forest
(0 times, not exactly once): activity 1 is itself an orphan (its parent 3 is
absent), so neither node is ever visited.  The claim's "each activity having
a parentId appears exactly once" fails on this input. -/
theorem thread_builder_cex :
    (⟨2, 1, "g", "m", some 1⟩ : Activity)
        ∈ ([⟨1, 1, "g", "m", some 3⟩, ⟨2, 1, "g", "m", some 1⟩] : List Activity)
      ∧ (∃ x ∈ ([⟨1, 1, "g", "m", some 3⟩, ⟨2, 1, "g", "m", some 1⟩] : List Activity),
          x.id = 1)
      ∧ countForest ⟨2, 1, "g", "m", some 1⟩
          (buildActivityForest [⟨1, 1, "g", "m", some 3⟩, ⟨2, 1, "g", "m", some 1⟩] [])
        = 0 := by
  decide

/-- C4 amended: over activity lists with distinct nonzero ids and nonzero
parent references (what the serial primary key and the foreign key
guarantee), an activity `b` with a `parentId`
(1) never appears as a top-level root,
(2) appears nowhere when its parent id references no activity of the list,
(3) appears in the forest exactly as often as its parent `q` does — and
every such occurrence is as a direct reply of the `q` node — hence exactly
once whenever its parent appears exactly once, and not at all when the
parent is itself dropped as an orphan. -/
theorem thread_builder_placement (L : List Activity) (R : List Reaction)
    (hL : (L.map Activity.id).Nodup)
    (hpos : ∀ x ∈ L, x.id ≠ 0)
    (hppar : ∀ x ∈ L, x.parentId ≠ some 0)
    (b : Activity) (hb : b ∈ L) (p : Nat) (hbp : b.parentId = some p) :
    b ∉ topLevelActivities L
      ∧ ((∀ x ∈ L, x.id ≠ p) → countForest b (buildActivityForest L R) = 0)
      ∧ (∀ q ∈ L, q.id = p →
          countForest b (buildActivityForest L R)
              = countForest q (buildActivityForest L R)
            ∧ countForest b (buildActivityForest L R)
              = countChildForest q b (buildActivityForest L R)) := by
  have hp0 : p ≠ 0 := fun hp => hppar b hb (hp ▸ hbp)
  have hbtruthy : isTruthyId b.parentId = true := by
    rw [hbp]
    simp [isTruthyId, hp0]
  have hbnotroot : b ∉ topLevelActivities L := by
    intro hmem
    rw [(topLevel_root hmem).2] at hbtruthy
    exact Bool.noConfusion hbtruthy
  have hrootb : ∀ r ∈ topLevelActivities L, r ≠ b := by
    intro r hr hrb
    subst hrb
    rw [(topLevel_root hr).2] at hbtruthy
    exact Bool.noConfusion hbtruthy
  refine ⟨hbnotroot, ?_, ?_⟩
  · intro hnone
    unfold countForest buildActivityForest
    rw [List.map_map]
    simp only [Function.comp_def]
    apply List.sum_eq_zero
    intro x hx
    rcases List.mem_map.mp hx with ⟨r, hr, rfl⟩
    exact countNode_orphan R hbp hnone L.length r (topLevel_root hr).1
      (hrootb r hr)
  · intro q hq hqp
    have hbq : b.parentId = some q.id := by rw [hbp, hqp]
    constructor
    · unfold countForest buildActivityForest
      rw [List.map_map, List.map_map]
      simp only [Function.comp_def]
      apply congrArg
      apply List.map_congr_left
      intro r hr
      obtain ⟨hrL, hrroot⟩ := topLevel_root hr
      have htr := countNode_transfer R hL hpos hb hq hbq L.length r [] hrL
        hrroot
        (by
          intro x hx
          rw [List.mem_singleton] at hx
          subst hx
          exact hrL)
        (by simp)
        (by simp)
      simpa [hrootb r hr] using htr
    · unfold countForest countChildForest buildActivityForest
      rw [List.map_map, List.map_map]
      simp only [Function.comp_def]
      apply congrArg
      apply List.map_congr_left
      intro r hr
      obtain ⟨hrL, _⟩ := topLevel_root hr
      have hco := countNode_eq_childOf R hL hb hq hbq L.length r hrL
      simpa [hrootb r hr] using hco

/-- Witness for `thread_builder_placement` at a concrete input: a root and
its reply. -/
theorem thread_builder_placement_witness :
    (⟨2, 1, "g", "m", some 1⟩ : Activity)
        ∉ topLevelActivities [⟨1, 1, "g", "m", none⟩, ⟨2, 1, "g", "m", some 1⟩]
      ∧ ((∀ x ∈ ([⟨1, 1, "g", "m", none⟩, ⟨2, 1, "g", "m", some 1⟩] : List Activity),
            x.id ≠ 1) →
          countForest ⟨2, 1, "g", "m", some 1⟩
            (buildActivityForest [⟨1, 1, "g", "m", none⟩, ⟨2, 1, "g", "m", some 1⟩] [])
            = 0)
      ∧ (∀ q ∈ ([⟨1, 1, "g", "m", none⟩, ⟨2, 1, "g", "m", some 1⟩] : List Activity),
          q.id = 1 →
          countForest ⟨2, 1, "g", "m", some 1⟩
              (buildActivityForest [⟨1, 1, "g", "m", none⟩, ⟨2, 1, "g", "m", some 1⟩] [])
            = countForest q
              (buildActivityForest [⟨1, 1, "g", "m", none⟩, ⟨2, 1, "g", "m", some 1⟩] [])
          ∧ countForest ⟨2, 1, "g", "m", some 1⟩
              (buildActivityForest [⟨1, 1, "g", "m", none⟩, ⟨2, 1, "g", "m", some 1⟩] [])
            = countChildForest q ⟨2, 1, "g", "m", some 1⟩
              (buildActivityForest [⟨1, 1, "g", "m", none⟩, ⟨2, 1, "g", "m", some 1⟩] [])) :=
  thread_builder_placement [⟨1, 1, "g", "m", none⟩, ⟨2, 1, "g", "m", some 1⟩] []
    (by decide) (by decide) (by decide) ⟨2, 1, "g", "m", some 1⟩ (by decide) 1 rfl

/-! ## Storage state and the event/RSVP operations -/

/-- A row of the `events` table.  `created` is an abstract timestamp. -/
structure Event where
  id : Nat
  title : String
  description : String
  image : String
  locationText : String
  locationNotes : Option String
  finalDateOptionId : Option Nat
  created : Nat
deriving Repr, DecidableEq

/-- The payload accepted by `insertEventSchema` =
`createInsertSchema(events).omit({ id: true, created: true })`
(schema file line 72): non-nullable columns are required; the nullable
columns are optional and nullable, so for them `none` models an absent key
(skipped by drizzle's `update().set`) and `some v` a present key with value
`v` (where `v = none` is an explicit SQL `null`). -/
structure InsertEvent where
  title : String
  description : String
  image : String
  locationText : String
  locationNotes : Option (Option String)
  finalDateOptionId : Option (Option Nat)
deriving Repr, DecidableEq

/-- A row of the `rsvps` table. -/
structure Rsvp where
  id : Nat
  eventId : Nat
  guest : String
  message : Option String
  email : Option String
  wantsUpdates : Bool
deriving Repr, DecidableEq

/-- The payload accepted by `insertRsvpSchema`. -/
structure InsertRsvp where
  eventId : Nat
  guest : String
  message : Option String
  email : Option String
  wantsUpdates : Bool
deriving Repr, DecidableEq

/-- The database tables, plus the serial counter for `rsvps.id`. -/
structure DBState where
  events : List Event
  dateOptions : List DateOption
  rsvps : List Rsvp
  dateSelections : List DateSelection
  activities : List Activity
  reactions : List Reaction
  nextRsvpId : Nat
deriving Repr, DecidableEq

/-- Outcome of a route handler. -/
inductive ApiResult (α : Type) where
  | ok (status : Nat) (payload : α)
  | badRequest
  | notFound
deriving Repr, DecidableEq

/-- Applying drizzle's `update(events).set(eventData)` to one row: required
fields overwrite, optional fields overwrite only when present in the
payload (absent keys are skipped). -/
def applyInsertEvent (e : Event) (d : InsertEvent) : Event :=
  { e with
    title := d.title
    description := d.description
    image := d.image
    locationText := d.locationText
    locationNotes := d.locationNotes.getD e.locationNotes
    finalDateOptionId := d.finalDateOptionId.getD e.finalDateOptionId }

/-- `DatabaseStorage.updateEvent` (`storage.ts` lines 75-82): update the row
with the given id and return the first updated row, if any. -/
def updateEvent (s : DBState) (id : Nat) (d : InsertEvent) :
    Option Event × DBState :=
  let newEvents := s.events.map (fun e =>
    if e.id == id then applyInsertEvent e d else e)
  ((newEvents.filter (fun e => e.id == id)).head?, { s with events := newEvents })

/-- `PUT /api/events/:id` (`routes.ts` lines 82-104). -/
def updateEventRoute (s : DBState) (eventId : Nat) (d : InsertEvent) :
    ApiResult Event × DBState :=
  match updateEvent s eventId d with
  | (none, s') => (.notFound, s')
  | (some e, s') => (.ok 200 e, s')

/-- `DatabaseStorage.setFinalDateOption` (`storage.ts` lines 84-103): verify
the date option exists and belongs to this event; only then update the
event's `finalDateOptionId`. -/
def setFinalDateOption (s : DBState) (eventId dateOptionId : Nat) :
    Option Event × DBState :=
  match s.dateOptions.find?
      (fun d => d.id == dateOptionId && d.eventId == eventId) with
  | none => (none, s)
  | some _ =>
    let newEvents := s.events.map (fun e =>
      if e.id == eventId then { e with finalDateOptionId := some dateOptionId }
      else e)
    ((newEvents.filter (fun e => e.id == eventId)).head?,
      { s with events := newEvents })

/-- `POST /api/events/:id/final-date` (`routes.ts` lines 304-322): a falsy
`dateOptionId` is a 400, a storage `undefined` is a 404, otherwise the
updated event is returned. -/
def finalDateRoute (s : DBState) (eventId dateOptionId : Nat) :
    ApiResult Event × DBState :=
  if dateOptionId == 0 then (.badRequest, s)
  else
    match setFinalDateOption s eventId dateOptionId with
    | (none, s') => (.notFound, s')
    | (some e, s') => (.ok 200 e, s')

/-- `DatabaseStorage.createRsvp` (`storage.ts` lines 156-173): insert the
RSVP row, then insert one date selection per supplied id — with no check
that those ids exist or belong to the event. -/
def createRsvp (s : DBState) (r : InsertRsvp) (dateOptionIds : List Nat) :
    Rsvp × DBState :=
  let rsvp : Rsvp :=
    ⟨s.nextRsvpId, r.eventId, r.guest, r.message, r.email, r.wantsUpdates⟩
  (rsvp,
    { s with
      rsvps := s.rsvps ++ [rsvp]
      dateSelections := s.dateSelections
        ++ dateOptionIds.map (fun d => ⟨rsvp.id, d⟩)
      nextRsvpId := s.nextRsvpId + 1 })

/-- `POST /api/events/:id/rsvps` (`routes.ts` lines 162-197): requires a
nonempty `dateOptionIds` array, overrides the body's `eventId` with the
path parameter, then stores the RSVP and its selections. -/
def createRsvpRoute (s : DBState) (eventId : Nat) (r : InsertRsvp)
    (dateOptionIds : List Nat) : ApiResult Rsvp × DBState :=
  if dateOptionIds.isEmpty then (.badRequest, s)
  else
    let res := createRsvp s { r with eventId := eventId } dateOptionIds
    (.ok 201 res.1, res.2)

/-- The vote tally read from the state: the event's date options against
the full `date_selections` table (`storage.ts` lines 258-288; the count at
line 266-269 filters selections only by `dateOptionId`). -/
def getDateOptionsWithVotesState (s : DBState) (eventId : Nat) :
    List DateOptionWithVotes :=
  getDateOptionsWithVotes (s.dateOptions.filter (fun d => d.eventId == eventId))
    s.dateSelections

/-! ### C6: final-date selection validates event ownership -/

/-- C6: when the date option does not belong to the target event (or does
not exist), `setFinalDateOption` returns `undefined` and leaves the state —
in particular the event's `finalDateOptionId` — untouched, and the route
answers 404; when it does belong, the event's `finalDateOptionId` is
persisted. -/
theorem set_final_date_validates (s : DBState) (eventId dateOptionId : Nat) :
    ((∀ d ∈ s.dateOptions, ¬(d.id = dateOptionId ∧ d.eventId = eventId)) →
        setFinalDateOption s eventId dateOptionId = (none, s)
          ∧ (dateOptionId ≠ 0 →
              finalDateRoute s eventId dateOptionId = (.notFound, s)))
      ∧ ((∃ d ∈ s.dateOptions, d.id = dateOptionId ∧ d.eventId = eventId) →
          ∀ e ∈ (setFinalDateOption s eventId dateOptionId).2.events,
            e.id = eventId → e.finalDateOptionId = some dateOptionId) := by
  constructor
  · intro hmiss
    have hfind : s.dateOptions.find?
        (fun d => d.id == dateOptionId && d.eventId == eventId) = none := by
      rw [List.find?_eq_none]
      intro d hd
      have := hmiss d hd
      simp only [Bool.and_eq_true, beq_iff_eq]
      intro hcontra
      exact this hcontra
    have hstore : setFinalDateOption s eventId dateOptionId = (none, s) := by
      unfold setFinalDateOption
      rw [hfind]
    refine ⟨hstore, fun h0 => ?_⟩
    unfold finalDateRoute
    rw [if_neg (by simpa using h0), hstore]
  · intro hfound e he heid
    have hsome : (s.dateOptions.find?
        (fun d => d.id == dateOptionId && d.eventId == eventId)).isSome := by
      rw [List.find?_isSome]
      obtain ⟨d, hd, hdid, hdev⟩ := hfound
      exact ⟨d, hd, by simp [hdid, hdev]⟩
    obtain ⟨d', hd'⟩ := Option.isSome_iff_exists.mp hsome
    have hevents : (setFinalDateOption s eventId dateOptionId).2.events
        = s.events.map (fun e =>
            if e.id == eventId then { e with finalDateOptionId := some dateOptionId }
            else e) := by
      unfold setFinalDateOption
      rw [hd']
    rw [hevents] at he
    rcases List.mem_map.mp he with ⟨e0, he0, rfl⟩
    by_cases h0 : (e0.id == eventId) = true
    · rw [if_pos h0]
    · rw [if_neg h0] at heid
      exact absurd heid (by simpa using h0)

/-! ### C8: deleting an activity cascades to its subtree and its reactions -/

/-- One step of the `onDelete: "cascade"` propagation along
`activities.parent_id`: every activity whose parent is already doomed
becomes doomed as well. -/
def cascadeStep (acts : List Activity) (s : Finset Nat) : Finset Nat :=
  s ∪ ((acts.filter (fun a => a.parentId.any (fun p => decide (p ∈ s)))).map
    Activity.id).toFinset

/-- The ids removed by `delete from activities where id = root` under the
schema's cascading self-reference: the closure of `{root}` under
`cascadeStep`, reached after at most `acts.length` productive steps. -/
def cascadeSet (acts : List Activity) (root : Nat) : Finset Nat :=
  (cascadeStep acts)^[acts.length + 1] {root}

/-- `DatabaseStorage.deleteActivity` (`storage.ts` lines 235-240) together
with the schema's cascades: `activities.parent_id` and
`reactions.activity_id` both declare `onDelete: "cascade"`, so the single
`delete` statement removes the whole reply subtree and its reactions. -/
def deleteActivity (s : DBState) (id : Nat) : DBState :=
  { s with
    activities := s.activities.filter
      (fun a => decide (a.id ∉ cascadeSet s.activities id))
    reactions := s.reactions.filter
      (fun r => decide (r.activityId ∉ cascadeSet s.activities id)) }

/-- One parent-child step: `j` is the id of an activity whose parent is `i`. -/
def ChildStep (acts : List Activity) (i j : Nat) : Prop :=
  ∃ a ∈ acts, a.id = j ∧ a.parentId = some i

/-- `j` is `i` itself or a descendant of `i` along the `parentId` relation. -/
def Descendant (acts : List Activity) (i j : Nat) : Prop :=
  Relation.ReflTransGen (ChildStep acts) i j

theorem subset_cascadeStep (acts : List Activity) (s : Finset Nat) :
    s ⊆ cascadeStep acts s :=
  Finset.subset_union_left

theorem cascadeStep_fixed_iterate {acts : List Activity} {s : Finset Nat}
    (h : cascadeStep acts s = s) : ∀ m, (cascadeStep acts)^[m] s = s := by
  intro m
  induction m with
  | zero => rfl
  | succ m ih => rw [Function.iterate_succ_apply', ih, h]

theorem iterate_subset_insert (acts : List Activity) (root : Nat) :
    ∀ k, (cascadeStep acts)^[k] {root}
      ⊆ insert root ((acts.map Activity.id).toFinset) := by
  intro k
  induction k with
  | zero =>
    intro x hx
    rw [Function.iterate_zero_apply, Finset.mem_singleton] at hx
    subst hx
    exact Finset.mem_insert_self _ _
  | succ k ih =>
    rw [Function.iterate_succ_apply']
    intro x hx
    rcases Finset.mem_union.mp hx with hx1 | hx2
    · exact ih hx1
    · rw [List.mem_toFinset] at hx2
      rcases List.mem_map.mp hx2 with ⟨a, ha, rfl⟩
      exact Finset.mem_insert_of_mem
        (List.mem_toFinset.mpr (List.mem_map.mpr ⟨a, List.mem_of_mem_filter ha, rfl⟩))

theorem exists_cascade_fixed (acts : List Activity) (root : Nat) :
    ∃ k ≤ acts.length,
      cascadeStep acts ((cascadeStep acts)^[k] {root})
        = (cascadeStep acts)^[k] {root} := by
  by_contra hcon
  push_neg at hcon
  have hgrow : ∀ k, k ≤ acts.length + 1 →
      k + 1 ≤ ((cascadeStep acts)^[k] ({root} : Finset Nat)).card := by
    intro k
    induction k with
    | zero =>
      intro _
      simp
    | succ k ih =>
      intro hk
      have hk' : k ≤ acts.length := by omega
      have hne := hcon k hk'
      have hss : (cascadeStep acts)^[k] ({root} : Finset Nat)
          ⊂ (cascadeStep acts)^[k + 1] {root} := by
        rw [Function.iterate_succ_apply']
        exact lt_of_le_of_ne (subset_cascadeStep acts _) (Ne.symm hne)
      have := Finset.card_lt_card hss
      have hih := ih (by omega)
      omega
  have hbig := hgrow (acts.length + 1) (le_refl _)
  have hsmall : ((cascadeStep acts)^[acts.length + 1] ({root} : Finset Nat)).card
      ≤ acts.length + 1 := by
    calc ((cascadeStep acts)^[acts.length + 1] ({root} : Finset Nat)).card
        ≤ (insert root ((acts.map Activity.id).toFinset)).card :=
          Finset.card_le_card (iterate_subset_insert acts root _)
      _ ≤ (acts.map Activity.id).toFinset.card + 1 := Finset.card_insert_le _ _
      _ ≤ (acts.map Activity.id).length + 1 :=
          Nat.add_le_add_right (List.toFinset_card_le _) 1
      _ = acts.length + 1 := by rw [List.length_map]
  omega

theorem cascadeSet_fixed (acts : List Activity) (root : Nat) :
    cascadeStep acts (cascadeSet acts root) = cascadeSet acts root := by
  obtain ⟨k, hk, hfix⟩ := exists_cascade_fixed acts root
  have hstable : cascadeSet acts root = (cascadeStep acts)^[k] {root} := by
    unfold cascadeSet
    have hsplit : acts.length + 1 = (acts.length + 1 - k) + k := by omega
    rw [hsplit, Function.iterate_add_apply]
    exact cascadeStep_fixed_iterate hfix _
  rw [hstable, hfix]

theorem root_mem_cascadeSet (acts : List Activity) (root : Nat) :
    root ∈ cascadeSet acts root := by
  have h : ∀ m, ({root} : Finset Nat) ⊆ (cascadeStep acts)^[m] {root} := by
    intro m
    induction m with
    | zero => exact subset_refl _
    | succ m ih =>
      rw [Function.iterate_succ_apply']
      exact subset_trans ih (subset_cascadeStep acts _)
  exact h (acts.length + 1) (Finset.mem_singleton_self root)

theorem cascade_sound (acts : List Activity) (root : Nat) :
    ∀ k x, x ∈ (cascadeStep acts)^[k] ({root} : Finset Nat) →
      Descendant acts root x := by
  intro k
  induction k with
  | zero =>
    intro x hx
    rw [Function.iterate_zero_apply, Finset.mem_singleton] at hx
    subst hx
    exact Relation.ReflTransGen.refl
  | succ k ih =>
    intro x hx
    rw [Function.iterate_succ_apply'] at hx
    rcases Finset.mem_union.mp hx with hx1 | hx2
    · exact ih x hx1
    · rw [List.mem_toFinset] at hx2
      rcases List.mem_map.mp hx2 with ⟨a, ha, rfl⟩
      have hacts := List.mem_of_mem_filter ha
      have hflt := List.of_mem_filter ha
      cases hpar : a.parentId with
      | none => rw [hpar] at hflt; cases hflt
      | some p =>
        rw [hpar] at hflt
        have hp : p ∈ (cascadeStep acts)^[k] ({root} : Finset Nat) := by
          simpa using hflt
        exact Relation.ReflTransGen.tail (ih p hp) ⟨a, hacts, rfl, hpar⟩

theorem cascade_complete (acts : List Activity) (root : Nat) :
    ∀ x, Descendant acts root x → x ∈ cascadeSet acts root := by
  intro x hx
  induction hx with
  | refl => exact root_mem_cascadeSet acts root
  | tail _hstep hchild ih =>
    rename_i p y
    obtain ⟨a, ha, haid, hapar⟩ := hchild
    rw [← cascadeSet_fixed acts root]
    apply Finset.mem_union_right
    rw [List.mem_toFinset]
    refine List.mem_map.mpr ⟨a, ?_, haid⟩
    apply List.mem_filter.mpr
    refine ⟨ha, ?_⟩
    rw [hapar]
    simpa using ih

/-- Membership in the executable cascade closure is exactly descendancy. -/
theorem mem_cascadeSet_iff (acts : List Activity) (root x : Nat) :
    x ∈ cascadeSet acts root ↔ Descendant acts root x :=
  ⟨cascade_sound acts root (acts.length + 1) x, cascade_complete acts root x⟩

/-- C8: `deleteActivity A` removes exactly `A` and its descendants under the
`parentId` relation, and exactly the reactions attached to those ids; every
other activity and reaction survives. -/
theorem delete_activity_cascade (s : DBState) (i : Nat) :
    (∀ a : Activity, a ∈ (deleteActivity s i).activities
        ↔ a ∈ s.activities ∧ ¬ Descendant s.activities i a.id)
      ∧ (∀ r : Reaction, r ∈ (deleteActivity s i).reactions
        ↔ r ∈ s.reactions ∧ ¬ Descendant s.activities i r.activityId) := by
  constructor
  · intro a
    unfold deleteActivity
    rw [List.mem_filter]
    simp [mem_cascadeSet_iff]
  · intro r
    unfold deleteActivity
    rw [List.mem_filter]
    simp [mem_cascadeSet_iff]

/-- Witness for `set_final_date_validates`: option 99 belongs to event 2,
so setting it as event 1's final date is rejected and changes nothing. -/
theorem set_final_date_validates_witness :
    setFinalDateOption
        ⟨[⟨1, "t", "d", "i", "l", none, none, 0⟩], [⟨99, 2, "ju", "7p"⟩],
          [], [], [], [], 1⟩ 1 99
      = (none, ⟨[⟨1, "t", "d", "i", "l", none, none, 0⟩], [⟨99, 2, "ju", "7p"⟩],
          [], [], [], [], 1⟩)
    ∧ finalDateRoute
        ⟨[⟨1, "t", "d", "i", "l", none, none, 0⟩], [⟨99, 2, "ju", "7p"⟩],
          [], [], [], [], 1⟩ 1 99
      = (.notFound, ⟨[⟨1, "t", "d", "i", "l", none, none, 0⟩], [⟨99, 2, "ju", "7p"⟩],
          [], [], [], [], 1⟩) :=
  ⟨((set_final_date_validates
      ⟨[⟨1, "t", "d", "i", "l", none, none, 0⟩], [⟨99, 2, "ju", "7p"⟩],
        [], [], [], [], 1⟩ 1 99).1 (by decide)).1,
   ((set_final_date_validates
      ⟨[⟨1, "t", "d", "i", "l", none, none, 0⟩], [⟨99, 2, "ju", "7p"⟩],
        [], [], [], [], 1⟩ 1 99).1 (by decide)).2 (by decide)⟩

/-! ### C7: is the final-date selection really one-way? -/

/-- C7 counterexample: the `PUT /api/events/:id` payload is validated by
`insertEventSchema`, which still contains the nullable `finalDateOptionId`
column; a payload that explicitly supplies `finalDateOptionId: null` is
accepted and `update().set` writes the `null`, clearing a previously
selected final date.  The transition is therefore not one-way. -/
theorem final_date_one_way_cex :
    ((⟨[⟨1, "t", "d", "i", "l", none, some 5, 0⟩], [], [], [], [], [], 1⟩
        : DBState).events.map (fun e => e.finalDateOptionId) = [some 5])
      ∧ ((updateEventRoute
            ⟨[⟨1, "t", "d", "i", "l", none, some 5, 0⟩], [], [], [], [], [], 1⟩ 1
            ⟨"t", "d", "i", "l", none, some none⟩).2.events.map
          (fun e => e.finalDateOptionId) = [none]) := by
  decide

/-- C7 amended: the one-way property holds for every operation except an
`updateEvent` whose payload explicitly supplies the `finalDateOptionId`
field: an update payload omitting the field preserves every event's
`finalDateOptionId`; `setFinalDateOption` never clears a set final date
(it only writes `some _`); and the remaining operations do not touch the
`events` table at all (shown for `deleteActivity` and `createRsvp`). -/
theorem final_date_one_way_amended (s : DBState) (id : Nat) (d : InsertEvent)
    (h : d.finalDateOptionId = none) (eid did aid : Nat) (r : InsertRsvp)
    (ids : List Nat) :
    ((updateEvent s id d).2.events.map (fun e => e.finalDateOptionId)
        = s.events.map (fun e => e.finalDateOptionId))
      ∧ (∀ e0 ∈ s.events, e0.finalDateOptionId.isSome = true →
          ∃ e1 ∈ (setFinalDateOption s eid did).2.events,
            e1.id = e0.id ∧ e1.finalDateOptionId.isSome = true)
      ∧ (deleteActivity s aid).events = s.events
      ∧ (createRsvp s r ids).2.events = s.events := by
  refine ⟨?_, ?_, rfl, rfl⟩
  · show (s.events.map (fun e => if e.id == id then applyInsertEvent e d else e)).map
        (fun e => e.finalDateOptionId) = s.events.map (fun e => e.finalDateOptionId)
    rw [List.map_map]
    apply List.map_congr_left
    intro e _
    by_cases h0 : (e.id == id) = true
    · simp only [Function.comp_def, if_pos h0, applyInsertEvent, h]
      rfl
    · simp only [Function.comp_def, if_neg h0]
  · intro e0 he0 hsome
    cases hfind : s.dateOptions.find?
        (fun dd => dd.id == did && dd.eventId == eid) with
    | none =>
      have hev : (setFinalDateOption s eid did).2.events = s.events := by
        unfold setFinalDateOption
        rw [hfind]
      rw [hev]
      exact ⟨e0, he0, rfl, hsome⟩
    | some dd =>
      have hev : (setFinalDateOption s eid did).2.events
          = s.events.map (fun e =>
              if e.id == eid then { e with finalDateOptionId := some did } else e) := by
        unfold setFinalDateOption
        rw [hfind]
      rw [hev]
      refine ⟨if e0.id == eid then { e0 with finalDateOptionId := some did } else e0,
        List.mem_map.mpr ⟨e0, he0, rfl⟩, ?_, ?_⟩
      · by_cases h0 : (e0.id == eid) = true
        · rw [if_pos h0]
        · rw [if_neg h0]
      · by_cases h0 : (e0.id == eid) = true
        · rw [if_pos h0]
          rfl
        · rw [if_neg h0]
          exact hsome

/-- Witness for `final_date_one_way_amended` at a concrete input. -/
theorem final_date_one_way_amended_witness :
    ((updateEvent ⟨[⟨1, "t", "d", "i", "l", none, some 5, 0⟩], [], [], [], [], [], 1⟩
        1 ⟨"t2", "d2", "i2", "l2", none, none⟩).2.events.map
          (fun e => e.finalDateOptionId)
        = ([⟨1, "t", "d", "i", "l", none, some 5, 0⟩] : List Event).map
          (fun e => e.finalDateOptionId))
      ∧ (∀ e0 ∈ ([⟨1, "t", "d", "i", "l", none, some 5, 0⟩] : List Event),
          e0.finalDateOptionId.isSome = true →
          ∃ e1 ∈ (setFinalDateOption
              ⟨[⟨1, "t", "d", "i", "l", none, some 5, 0⟩], [], [], [], [], [], 1⟩
              1 2).2.events,
            e1.id = e0.id ∧ e1.finalDateOptionId.isSome = true)
      ∧ (deleteActivity
          ⟨[⟨1, "t", "d", "i", "l", none, some 5, 0⟩], [], [], [], [], [], 1⟩
          1).events = [⟨1, "t", "d", "i", "l", none, some 5, 0⟩]
      ∧ (createRsvp
          ⟨[⟨1, "t", "d", "i", "l", none, some 5, 0⟩], [], [], [], [], [], 1⟩
          ⟨1, "g", none, none, false⟩ []).2.events
        = [⟨1, "t", "d", "i", "l", none, some 5, 0⟩] :=
  final_date_one_way_amended
    ⟨[⟨1, "t", "d", "i", "l", none, some 5, 0⟩], [], [], [], [], [], 1⟩
    1 ⟨"t2", "d2", "i2", "l2", none, none⟩ rfl 1 2 1 ⟨1, "g", none, none, false⟩ []

/-! ### C10: RSVPs do not validate their date option ids -/

/-- C10: `createRsvp` checks nothing about the supplied `dateOptionIds`
(unlike `setFinalDateOption`): an RSVP posted to event 1 naming date option
7 — which belongs to event 2 — succeeds with 201, records the cross-event
date selection, and that selection is then counted in event 2's tally. -/
theorem rsvp_cross_event_leak :
    (createRsvpRoute
        ⟨[⟨1, "t", "d", "i", "l", none, none, 0⟩, ⟨2, "u", "e", "j", "m", none, none, 0⟩],
          [⟨7, 2, "ju", "7p"⟩], [], [], [], [], 1⟩
        1 ⟨0, "g", none, none, false⟩ [7]).1
      = .ok 201 ⟨1, 1, "g", none, none, false⟩
    ∧ (createRsvpRoute
        ⟨[⟨1, "t", "d", "i", "l", none, none, 0⟩, ⟨2, "u", "e", "j", "m", none, none, 0⟩],
          [⟨7, 2, "ju", "7p"⟩], [], [], [], [], 1⟩
        1 ⟨0, "g", none, none, false⟩ [7]).2.dateSelections = [⟨1, 7⟩]
    ∧ (∀ d ∈ ([⟨7, 2, "ju", "7p"⟩] : List DateOption), d.eventId ≠ 1)
    ∧ ((getDateOptionsWithVotesState
        (createRsvpRoute
          ⟨[⟨1, "t", "d", "i", "l", none, none, 0⟩, ⟨2, "u", "e", "j", "m", none, none, 0⟩],
            [⟨7, 2, "ju", "7p"⟩], [], [], [], [], 1⟩
          1 ⟨0, "g", none, none, false⟩ [7]).2 2).map (fun v => (v.id, v.votes))
      = [(7, 1)]) := by
  decide

end PartyPlanner
